import Mathlib

/-!
Verification development for `linkedin_job_scraper.py`.

Python strings are embedded as `List Char` (`Str`).  Python's
`str.split(sep)` for a nonempty separator is embedded as `pySplit`
(fuel-indexed so that it is structural and kernel-computable), and the
membership test `sep in s` as `hasSub`.  The scraper's pure helpers
(`normalize_linkedin_job_url`, `get_existing_job_links`, the per-card
body of `extract_and_save_jobs`) are translated directly; the Selenium
driver is abstracted as a `Snapshot`/`StepEnv` environment that supplies
what the code reads from the browser on each iteration of the main loop
of `scrape_linkedin_jobs`.
-/

abbrev Str := List Char

/-- One scan step of Python `s.split(sep)` over char lists: walk the input,
emitting the accumulated chunk each time `sep` matches at the current
position and skipping it.  `fuel` bounds the recursion (it is called with
`fuel = s.length`, which suffices for a nonempty `sep`); on exhausted fuel
the remainder is flushed into the current chunk. -/
def pySplitAux (sep : Str) : Nat → Str → Str → List Str
  | 0, s, acc => [acc ++ s]
  | fuel + 1, s, acc =>
    match s with
    | [] => [acc]
    | x :: xs =>
      if sep.isPrefixOf (x :: xs) then
        acc :: pySplitAux sep fuel ((x :: xs).drop sep.length) []
      else
        pySplitAux sep fuel xs (acc ++ [x])

/-- Python `s.split(sep)` for a nonempty separator `sep`. -/
def pySplit (sep s : Str) : List Str :=
  pySplitAux sep s.length s []

/-- Python `sep in s` for a nonempty separator: some occurrence of `sep`
starts at some position of `s`. -/
def hasSub (sep : Str) : Str → Bool
  | [] => sep.isEmpty
  | x :: xs => sep.isPrefixOf (x :: xs) || hasSub sep xs

/-- The literal `"linkedin.com/jobs/view/"` from `normalize_linkedin_job_url`. -/
def viewSep : Str := "linkedin.com/jobs/view/".toList

/-- The literal prefix of the canonical form rebuilt by the normalizer. -/
def normPrefix : Str := "https://www.linkedin.com/jobs/view/".toList

def slashSep : Str := "/".toList

def qmarkSep : Str := "?".toList

/-- Function `normalize_linkedin_job_url` (lines 51-68): if the job-view marker occurs
in the URL, split on it, take everything after the first occurrence, cut at
the first `/` and then at the first `?`, and rebuild the canonical link;
otherwise return the input unchanged. -/
def normalize_linkedin_job_url (url : Str) : Str :=
  if hasSub viewSep url then
    if 1 < (pySplit viewSep url).length then
      normPrefix ++
        ((pySplit qmarkSep
          ((pySplit slashSep ((pySplit viewSep url).getD 1 [])).headD [])).headD []) ++
        slashSep
    else url
  else url

-- ### Lemmas about the split machinery

theorem pySplitAux_fuel_eq (sep : Str) (hsep : sep ≠ []) :
    ∀ f1 f2 s acc, s.length ≤ f1 → s.length ≤ f2 →
      pySplitAux sep f1 s acc = pySplitAux sep f2 s acc := by
  intro f1
  induction f1 with
  | zero =>
    intro f2 s acc h1 h2
    have hs : s = [] := List.length_eq_zero.mp (Nat.le_zero.mp h1)
    subst hs
    cases f2 with
    | zero => rfl
    | succ f2 => simp [pySplitAux]
  | succ f1 ih =>
    intro f2 s acc h1 h2
    cases s with
    | nil =>
      cases f2 with
      | zero => simp [pySplitAux]
      | succ f2 => rfl
    | cons x xs =>
      cases f2 with
      | zero => simp at h2
      | succ f2 =>
        simp only [pySplitAux]
        by_cases hp : sep.isPrefixOf (x :: xs) = true
        · rw [if_pos hp, if_pos hp]
          have hlen : ((x :: xs).drop sep.length).length ≤ f1 ∧
              ((x :: xs).drop sep.length).length ≤ f2 := by
            have hcons : 1 ≤ sep.length := by
              cases sep with
              | nil => exact absurd rfl hsep
              | cons a as => simp
            constructor <;>
              · rw [List.length_drop]
                simp only [List.length_cons] at h1 h2 ⊢
                omega
          rw [ih f2 _ [] hlen.1 hlen.2]
        · rw [if_neg hp, if_neg hp]
          exact ih f2 xs (acc ++ [x]) (by simp only [List.length_cons] at h1; omega)
            (by simp only [List.length_cons] at h2; omega)

theorem pySplitAux_of_not_hasSub (sep : Str) (_hsep : sep ≠ []) :
    ∀ fuel s acc, s.length ≤ fuel → hasSub sep s = false →
      pySplitAux sep fuel s acc = [acc ++ s] := by
  intro fuel
  induction fuel with
  | zero => intro s acc _ _; rfl
  | succ fuel ih =>
    intro s acc hlen hsub
    cases s with
    | nil => simp [pySplitAux]
    | cons x xs =>
      simp only [hasSub, Bool.or_eq_false_iff] at hsub
      simp only [pySplitAux]
      rw [if_neg (by rw [hsub.1]; simp)]
      rw [ih xs (acc ++ [x]) (by simp only [List.length_cons] at hlen; omega) hsub.2]
      simp

theorem pySplit_of_not_hasSub (sep : Str) (hsep : sep ≠ []) (s : Str)
    (h : hasSub sep s = false) : pySplit sep s = [s] := by
  unfold pySplit
  rw [pySplitAux_of_not_hasSub sep hsep s.length s [] (le_refl _) h]
  simp

theorem isPrefixOf_append_self : ∀ l t : Str, l.isPrefixOf (l ++ t) = true := by
  intro l
  induction l with
  | nil => intro t; simp [List.isPrefixOf]
  | cons a as ih => intro t; simp [List.isPrefixOf, ih t]

/-- Splitting `pre ++ sep ++ tail` where the first char of `sep` does not
occur in `pre`: the first chunk is `pre` and the rest is the split of
`tail`. -/
theorem pySplitAux_append_sep (c : Char) (cs : Str) :
    ∀ pre tail acc fuel, (∀ a ∈ pre, a ≠ c) →
      (pre ++ (c :: cs) ++ tail).length ≤ fuel →
      pySplitAux (c :: cs) fuel (pre ++ (c :: cs) ++ tail) acc
        = (acc ++ pre) :: pySplit (c :: cs) tail := by
  intro pre
  induction pre with
  | nil =>
    intro tail acc fuel _ hlen
    cases fuel with
    | zero => simp at hlen
    | succ fuel =>
      simp only [List.nil_append] at hlen ⊢
      have hexp : (c :: cs) ++ tail = c :: (cs ++ tail) := by simp
      rw [hexp]
      simp only [pySplitAux]
      rw [if_pos (by rw [← hexp]; exact isPrefixOf_append_self (c :: cs) tail)]
      have hdrop : (c :: (cs ++ tail)).drop (c :: cs).length = tail := by
        rw [← hexp]
        exact List.drop_left (c :: cs) tail
      rw [hdrop]
      have hfe : pySplitAux (c :: cs) fuel tail [] = pySplitAux (c :: cs) tail.length tail [] := by
        apply pySplitAux_fuel_eq (c :: cs) (by simp) fuel tail.length tail []
        · simp only [List.length_cons, List.length_append] at hlen
          omega
        · exact le_refl _
      rw [hfe]
      simp [pySplit]
  | cons a pre ih =>
    intro tail acc fuel hpre hlen
    cases fuel with
    | zero => simp at hlen
    | succ fuel =>
      have hexp : (a :: pre) ++ (c :: cs) ++ tail = a :: (pre ++ (c :: cs) ++ tail) := by simp
      rw [hexp]
      simp only [pySplitAux]
      have hne : ((c :: cs).isPrefixOf (a :: (pre ++ (c :: cs) ++ tail))) = false := by
        simp only [List.isPrefixOf, Bool.and_eq_false_iff]
        left
        have hac : a ≠ c := hpre a (by simp)
        simp only [beq_eq_false_iff_ne, ne_eq]
        exact fun he => hac he.symm
      rw [if_neg (by rw [hne]; simp)]
      have hlen2 : (pre ++ (c :: cs) ++ tail).length ≤ fuel := by
        rw [hexp] at hlen
        simp only [List.length_cons] at hlen
        omega
      rw [ih tail (acc ++ [a]) fuel (fun x hx => hpre x (by simp [hx])) hlen2]
      simp

theorem pySplit_append_sep (c : Char) (cs : Str) (pre tail : Str)
    (hpre : ∀ a ∈ pre, a ≠ c) :
    pySplit (c :: cs) (pre ++ (c :: cs) ++ tail) = pre :: pySplit (c :: cs) tail := by
  unfold pySplit
  rw [pySplitAux_append_sep c cs pre tail [] _ hpre (le_refl _)]
  simp [pySplit]

theorem hasSub_append_sep (c : Char) (cs : Str) :
    ∀ pre tail, hasSub (c :: cs) (pre ++ (c :: cs) ++ tail) = true := by
  intro pre
  induction pre with
  | nil =>
    intro tail
    have hexp : ([] : Str) ++ (c :: cs) ++ tail = c :: (cs ++ tail) := by simp
    rw [hexp]
    simp only [hasSub]
    rw [show c :: (cs ++ tail) = (c :: cs) ++ tail by simp,
      isPrefixOf_append_self (c :: cs) tail]
    simp
  | cons a pre ih =>
    intro tail
    have hexp : (a :: pre) ++ (c :: cs) ++ tail = a :: (pre ++ (c :: cs) ++ tail) := by simp
    rw [hexp]
    simp only [hasSub]
    rw [ih tail]
    simp

theorem count_le_of_isPrefixOf : ∀ l s : Str, l.isPrefixOf s = true →
    ∀ c : Char, l.count c ≤ s.count c := by
  intro l
  induction l with
  | nil => intro s _ c; simp
  | cons a as ih =>
    intro s hp c
    cases s with
    | nil => simp [List.isPrefixOf] at hp
    | cons b bs =>
      simp only [List.isPrefixOf, Bool.and_eq_true] at hp
      have hab : a = b := by simpa [beq_iff_eq] using hp.1
      subst hab
      have := ih bs hp.2 c
      simp only [List.count_cons]
      omega

theorem count_le_of_hasSub : ∀ s sep : Str, hasSub sep s = true →
    ∀ c : Char, sep.count c ≤ s.count c := by
  intro s
  induction s with
  | nil =>
    intro sep h c
    cases sep with
    | nil => simp
    | cons a as => simp [hasSub, List.isEmpty] at h
  | cons x xs ih =>
    intro sep h c
    simp only [hasSub, Bool.or_eq_true] at h
    rcases h with h | h
    · exact count_le_of_isPrefixOf sep (x :: xs) h c
    · have := ih sep h c
      simp only [List.count_cons]
      omega

/-- Elements of the first chunk of a split come from the accumulator or the
input. -/
theorem mem_headD_pySplitAux (sep : Str) :
    ∀ fuel s acc, s.length ≤ fuel →
      ∀ a ∈ ((pySplitAux sep fuel s acc).headD []), a ∈ acc ∨ a ∈ s := by
  intro fuel
  induction fuel with
  | zero =>
    intro s acc h a ha
    have hs : s = [] := List.length_eq_zero.mp (Nat.le_zero.mp h)
    subst hs
    simp only [pySplitAux, List.headD] at ha
    simp at ha
    exact Or.inl ha
  | succ fuel ih =>
    intro s acc h a ha
    cases s with
    | nil =>
      simp only [pySplitAux, List.headD] at ha
      exact Or.inl ha
    | cons x xs =>
      simp only [pySplitAux] at ha
      by_cases hp : sep.isPrefixOf (x :: xs) = true
      · rw [if_pos hp] at ha
        simp only [List.headD] at ha
        exact Or.inl ha
      · rw [if_neg hp] at ha
        have := ih xs (acc ++ [x]) (by simp only [List.length_cons] at h; omega) a ha
        rcases this with h1 | h1
        · simp only [List.mem_append, List.mem_singleton] at h1
          rcases h1 with h1 | h1
          · exact Or.inl h1
          · exact Or.inr (by simp [h1])
        · exact Or.inr (by simp [h1])

/-- The first chunk of a single-character split never contains that
character. -/
theorem headD_pySplitAux_single (c : Char) :
    ∀ fuel s acc, s.length ≤ fuel → (∀ a ∈ acc, a ≠ c) →
      ∀ a ∈ ((pySplitAux [c] fuel s acc).headD []), a ≠ c := by
  intro fuel
  induction fuel with
  | zero =>
    intro s acc h hacc a ha
    have hs : s = [] := List.length_eq_zero.mp (Nat.le_zero.mp h)
    subst hs
    simp only [pySplitAux, List.headD] at ha
    simp at ha
    exact hacc a ha
  | succ fuel ih =>
    intro s acc h hacc a ha
    cases s with
    | nil =>
      simp only [pySplitAux, List.headD] at ha
      exact hacc a ha
    | cons x xs =>
      simp only [pySplitAux] at ha
      by_cases hp : List.isPrefixOf [c] (x :: xs) = true
      · rw [if_pos hp] at ha
        simp only [List.headD] at ha
        exact hacc a ha
      · rw [if_neg hp] at ha
        have hxc : x ≠ c := by
          intro he
          apply hp
          simp [List.isPrefixOf, he]
        apply ih xs (acc ++ [x]) (by simp only [List.length_cons] at h; omega)
        · intro b hb
          simp only [List.mem_append, List.mem_singleton] at hb
          rcases hb with hb | hb
          · exact hacc b hb
          · rw [hb]; exact hxc
        · exact ha

theorem headD_pySplit_single (c : Char) (s : Str) :
    ∀ a ∈ ((pySplit [c] s).headD []), a ≠ c := by
  intro a ha
  exact headD_pySplitAux_single c s.length s [] (le_refl _) (by simp) a ha

theorem mem_headD_pySplit (sep s : Str) :
    ∀ a ∈ ((pySplit sep s).headD []), a ∈ s := by
  intro a ha
  rcases mem_headD_pySplitAux sep s.length s [] (le_refl _) a ha with h | h
  · simp at h
  · exact h

-- ### Idempotence of the normalizer

def wwwPrefix : Str := "https://www.".toList

theorem normPrefix_eq : normPrefix = wwwPrefix ++ viewSep := by decide

theorem viewSep_cons : viewSep = 'l' :: "inkedin.com/jobs/view/".toList := by decide

theorem wwwPrefix_no_l : ∀ a ∈ wwwPrefix, a ≠ 'l' := by decide

theorem count_slash_viewSep : viewSep.count '/' = 3 := by decide

/-- A canonical link `https://www.linkedin.com/jobs/view/<id>/` whose id part
contains neither `/` nor `?` is a fixed point of the normalizer. -/
theorem normalize_fix_canonical (id : Str) (hs : ∀ a ∈ id, a ≠ '/')
    (hq : ∀ a ∈ id, a ≠ '?') :
    normalize_linkedin_job_url (normPrefix ++ id ++ slashSep)
      = normPrefix ++ id ++ slashSep := by
  have hre : normPrefix ++ id ++ slashSep = wwwPrefix ++ viewSep ++ (id ++ slashSep) := by
    rw [normPrefix_eq]
    simp [List.append_assoc]
  rw [hre]
  have h1 : hasSub viewSep (wwwPrefix ++ viewSep ++ (id ++ slashSep)) = true := by
    rw [viewSep_cons]
    exact hasSub_append_sep 'l' _ wwwPrefix (id ++ slashSep)
  have hnosub : hasSub viewSep (id ++ slashSep) = false := by
    rcases Bool.eq_false_or_eq_true (hasSub viewSep (id ++ slashSep)) with h | h
    swap
    · exact h
    · exfalso
      have hcount := count_le_of_hasSub (id ++ slashSep) viewSep h '/'
      rw [count_slash_viewSep, List.count_append] at hcount
      have hid : id.count '/' = 0 := by
        rw [List.count_eq_zero]
        intro hmem
        exact hs '/' hmem rfl
      rw [hid] at hcount
      have : slashSep.count '/' = 1 := by decide
      omega
  have htail : pySplit viewSep (id ++ slashSep) = [id ++ slashSep] :=
    pySplit_of_not_hasSub viewSep (by decide) _ hnosub
  have hsplit : pySplit viewSep (wwwPrefix ++ viewSep ++ (id ++ slashSep))
      = [wwwPrefix, id ++ slashSep] := by
    rw [viewSep_cons]
    rw [pySplit_append_sep 'l' _ wwwPrefix (id ++ slashSep) wwwPrefix_no_l]
    rw [← viewSep_cons, htail]
  have hslash : pySplit slashSep (id ++ slashSep) = [id, []] := by
    show pySplit ('/' :: []) (id ++ ('/' :: [])) = [id, []]
    rw [show id ++ ('/' :: ([] : Str)) = id ++ ('/' :: ([] : Str)) ++ ([] : Str) by simp]
    rw [pySplit_append_sep '/' [] id [] hs]
    rfl
  have hqm : pySplit qmarkSep id = [id] := by
    apply pySplit_of_not_hasSub qmarkSep (by decide)
    rcases Bool.eq_false_or_eq_true (hasSub qmarkSep id) with h | h
    swap
    · exact h
    · exfalso
      have hcount := count_le_of_hasSub id qmarkSep h '?'
      have h1' : qmarkSep.count '?' = 1 := by decide
      have h2' : id.count '?' = 0 := by
        rw [List.count_eq_zero]
        intro hmem
        exact hq '?' hmem rfl
      omega
  unfold normalize_linkedin_job_url
  rw [if_pos h1, hsplit]
  rw [if_pos (by simp)]
  have hget : ([wwwPrefix, id ++ slashSep].getD 1 []) = id ++ slashSep := by simp [List.getD]
  rw [hget, hslash]
  have hhead : ([id, ([] : Str)].headD []) = id := rfl
  rw [hhead, hqm]
  rw [show (([id].headD []) : Str) = id from rfl]
  rw [hre]

/-- Idempotence of `normalize_linkedin_job_url` (helper shared by several
claims). -/
theorem normalizeUrl_idem (u : Str) :
    normalize_linkedin_job_url (normalize_linkedin_job_url u)
      = normalize_linkedin_job_url u := by
  by_cases h : hasSub viewSep u = true
  · by_cases h2 : 1 < (pySplit viewSep u).length
    · have hshape : normalize_linkedin_job_url u =
          normPrefix ++
            ((pySplit qmarkSep
              ((pySplit slashSep ((pySplit viewSep u).getD 1 [])).headD [])).headD []) ++
            slashSep := by
        unfold normalize_linkedin_job_url
        rw [if_pos h, if_pos h2]
      have hq : ∀ a ∈ ((pySplit qmarkSep
          ((pySplit slashSep ((pySplit viewSep u).getD 1 [])).headD [])).headD []),
          a ≠ '?' :=
        headD_pySplit_single '?' _
      have hs : ∀ a ∈ ((pySplit qmarkSep
          ((pySplit slashSep ((pySplit viewSep u).getD 1 [])).headD [])).headD []),
          a ≠ '/' := fun a ha =>
        headD_pySplit_single '/' ((pySplit viewSep u).getD 1 []) a
          (mem_headD_pySplit qmarkSep _ a ha)
      rw [hshape]
      exact normalize_fix_canonical _ hs hq
    · have heq : normalize_linkedin_job_url u = u := by
        unfold normalize_linkedin_job_url
        rw [if_pos h, if_neg h2]
      rw [heq]
      exact heq
  · have heq : normalize_linkedin_job_url u = u := by
      unfold normalize_linkedin_job_url
      rw [if_neg h]
    rw [heq]
    exact heq

/-- C6: identity normalization is idempotent — for every input string `u`,
normalizing twice yields the same result as normalizing once, in particular
for links with or without query parameters and with or without trailing
path segments. -/
theorem c6_normalize_idempotent (u : Str) :
    normalize_linkedin_job_url (normalize_linkedin_job_url u)
      = normalize_linkedin_job_url u :=
  normalizeUrl_idem u

-- ### Job extraction and deduplicated persistence

def NAstr : Str := "N/A".toList

/-- One job card as parsed from the results-list HTML (lines 159-186 of
`extract_and_save_jobs`): each field locator may or may not find its
element; a missing field leaves the sentinel `"N/A"`.  The posted-time
field carries the final display text (the `dateutil` reformatting of
lines 181-186 only changes that text and no claim depends on it). -/
structure JobCard where
  title : Option Str
  company : Option Str
  location : Option Str
  href : Option Str
  postTime : Option Str
deriving DecidableEq

def fieldOrNA (o : Option Str) : Str := o.getD NAstr

/-- The Link column of an output row
`[title, company, location, link, post_time]` (column index 3). -/
def rowKey (row : List Str) : Str := row.getD 3 []

/-- The state threaded through `extract_and_save_jobs`: the
`existing_links` set (a duplicate-free list in insertion order), the rows
appended to the CSV so far this run, and `scraped_job_counter`. -/
structure ExtractState where
  existing_links : List Str
  rows : List (List Str)
  counter : Nat
deriving DecidableEq

/-- The body of the per-card loop of `extract_and_save_jobs`
(lines 159-199): resolve each field to its text or `"N/A"`, normalize the
link, and append the row only when the normalized link is non-empty
(Python truthiness) and not in `existing_links`, adding the key to the
set at the moment of the append. -/
def processCard (st : ExtractState) (card : JobCard) : ExtractState :=
  let title := fieldOrNA card.title
  let company := fieldOrNA card.company
  let job_location := fieldOrNA card.location
  let job_link := fieldOrNA card.href
  let post_time := fieldOrNA card.postTime
  let normalized_job_link := normalize_linkedin_job_url job_link
  if normalized_job_link ≠ [] ∧ normalized_job_link ∉ st.existing_links then
    { existing_links := st.existing_links ++ [normalized_job_link],
      rows := st.rows ++
        [[title, company, job_location, normalized_job_link, post_time]],
      counter := st.counter + 1 }
  else st

/-- What the driver shows when `extract_and_save_jobs` reads the page:
the `innerHTML` read may fail (line 137), the results-list container may
be missing (line 146), or a list of job cards is found (line 153). -/
inductive Snapshot
  | unavailable
  | noContainer
  | page (cards : List JobCard)
deriving DecidableEq

/-- Function `extract_and_save_jobs` (lines 127-201): on either error path the state
is returned unchanged with 0 as the total number of cards; otherwise every
card is processed in order and the total is the number of cards found. -/
def extract_and_save_jobs (snap : Snapshot) (st : ExtractState) : ExtractState × Nat :=
  match snap with
  | .unavailable => (st, 0)
  | .noContainer => (st, 0)
  | .page cards => (cards.foldl processCard st, cards.length)

/-- A sequence of `extract_and_save_jobs` calls sharing one
`existing_links` set and one CSV file. -/
def runExtracts (snaps : List Snapshot) (st : ExtractState) : ExtractState :=
  snaps.foldl (fun s snap => (extract_and_save_jobs snap s).1) st

theorem processCard_eq (st : ExtractState) (card : JobCard) :
    processCard st card =
      (if normalize_linkedin_job_url (fieldOrNA card.href) ≠ [] ∧
          normalize_linkedin_job_url (fieldOrNA card.href) ∉ st.existing_links then
        { existing_links :=
            st.existing_links ++ [normalize_linkedin_job_url (fieldOrNA card.href)],
          rows := st.rows ++
            [[fieldOrNA card.title, fieldOrNA card.company, fieldOrNA card.location,
              normalize_linkedin_job_url (fieldOrNA card.href), fieldOrNA card.postTime]],
          counter := st.counter + 1 }
      else st) := rfl

-- ### The dedup/store invariant

/-- Store invariant relative to the preloaded key set `L0`: the seen-set is
exactly `L0` followed by the keys of the appended rows, those keys are
pairwise distinct, none of them was preloaded, each is a fixed point of the
normalizer, and every appended row has the 5 fixed columns. -/
def ExInv (L0 : List Str) (st : ExtractState) : Prop :=
  st.existing_links = L0 ++ st.rows.map rowKey ∧
  (st.rows.map rowKey).Nodup ∧
  (∀ r ∈ st.rows, rowKey r ∉ L0) ∧
  (∀ r ∈ st.rows, normalize_linkedin_job_url (rowKey r) = rowKey r) ∧
  (∀ r ∈ st.rows, r.length = 5)

theorem exInv_init (L0 : List Str) (c : Nat) : ExInv L0 ⟨L0, [], c⟩ :=
  ⟨by simp, by simp, by simp, by simp, by simp⟩

theorem exInv_processCard (L0 : List Str) (st : ExtractState) (card : JobCard)
    (h : ExInv L0 st) : ExInv L0 (processCard st card) := by
  rw [processCard_eq]
  split
  case isTrue hc =>
    obtain ⟨h1, h2, h3, h4, h5⟩ := h
    obtain ⟨hne, hnotin⟩ := hc
    have hkmap : (st.rows ++
        [[fieldOrNA card.title, fieldOrNA card.company, fieldOrNA card.location,
          normalize_linkedin_job_url (fieldOrNA card.href),
          fieldOrNA card.postTime]]).map rowKey
        = st.rows.map rowKey ++ [normalize_linkedin_job_url (fieldOrNA card.href)] := by
      rw [List.map_append]
      rfl
    have hknotmap : normalize_linkedin_job_url (fieldOrNA card.href) ∉ st.rows.map rowKey := by
      intro hmem
      exact hnotin (by rw [h1]; exact List.mem_append_right _ hmem)
    have hknotL0 : normalize_linkedin_job_url (fieldOrNA card.href) ∉ L0 := by
      intro hmem
      exact hnotin (by rw [h1]; exact List.mem_append_left _ hmem)
    refine ⟨?_, ?_, ?_, ?_, ?_⟩
    · show st.existing_links ++ _ = _
      rw [hkmap, h1, List.append_assoc]
    · rw [hkmap]
      rw [List.nodup_append]
      exact ⟨h2, List.nodup_singleton _, by
        intro a ha hb
        simp only [List.mem_singleton] at hb
        exact hknotmap (hb ▸ ha)⟩
    · intro r hr
      rcases List.mem_append.mp hr with hr | hr
      · exact h3 r hr
      · simp only [List.mem_singleton] at hr
        subst hr
        simpa [rowKey] using hknotL0
    · intro r hr
      rcases List.mem_append.mp hr with hr | hr
      · exact h4 r hr
      · simp only [List.mem_singleton] at hr
        subst hr
        show normalize_linkedin_job_url (normalize_linkedin_job_url _) = _
        exact normalizeUrl_idem _
    · intro r hr
      rcases List.mem_append.mp hr with hr | hr
      · exact h5 r hr
      · simp only [List.mem_singleton] at hr
        subst hr
        rfl
  case isFalse => exact h

theorem exInv_foldl (L0 : List Str) :
    ∀ (cards : List JobCard) (st : ExtractState),
      ExInv L0 st → ExInv L0 (cards.foldl processCard st) := by
  intro cards
  induction cards with
  | nil => intro st h; exact h
  | cons c cs ih =>
    intro st h
    exact ih _ (exInv_processCard L0 st c h)

theorem exInv_extract (L0 : List Str) (snap : Snapshot) (st : ExtractState)
    (h : ExInv L0 st) : ExInv L0 (extract_and_save_jobs snap st).1 := by
  cases snap with
  | unavailable => exact h
  | noContainer => exact h
  | page cards => exact exInv_foldl L0 cards st h

theorem exInv_runExtracts (L0 : List Str) :
    ∀ (snaps : List Snapshot) (st : ExtractState),
      ExInv L0 st → ExInv L0 (runExtracts snaps st) := by
  intro snaps
  induction snaps with
  | nil => intro st h; exact h
  | cons s ss ih =>
    intro st h
    exact ih _ (exInv_extract L0 s st h)

-- ### Counter bookkeeping (counter grows in lockstep with appended rows)

theorem cnt_processCard (a b : Nat) (st : ExtractState) (card : JobCard)
    (h : st.counter + a = b + st.rows.length) :
    (processCard st card).counter + a = b + (processCard st card).rows.length := by
  rw [processCard_eq]
  split
  · simp only [List.length_append, List.length_singleton]
    omega
  · exact h

theorem cnt_foldl (a b : Nat) :
    ∀ (cards : List JobCard) (st : ExtractState),
      st.counter + a = b + st.rows.length →
      (cards.foldl processCard st).counter + a = b + (cards.foldl processCard st).rows.length := by
  intro cards
  induction cards with
  | nil => intro st h; exact h
  | cons c cs ih =>
    intro st h
    exact ih _ (cnt_processCard a b st c h)

theorem cnt_extract (a b : Nat) (snap : Snapshot) (st : ExtractState)
    (h : st.counter + a = b + st.rows.length) :
    (extract_and_save_jobs snap st).1.counter + a
      = b + (extract_and_save_jobs snap st).1.rows.length := by
  cases snap with
  | unavailable => exact h
  | noContainer => exact h
  | page cards => exact cnt_foldl a b cards st h

/-- C1: over any run of `extract_and_save_jobs` steps starting from the
seen-set preloaded from the existing file, no two appended rows share the
same normalized identity key, no appended row's key was preloaded, and the
seen-set is at every point the preload followed by exactly the appended
keys (each key enters the set at the moment of its append). -/
theorem c1_dedup_invariant (preload : List Str) (c0 : Nat) (snaps : List Snapshot) :
    ((runExtracts snaps ⟨preload, [], c0⟩).rows.map rowKey).Nodup ∧
    (∀ r ∈ (runExtracts snaps ⟨preload, [], c0⟩).rows, rowKey r ∉ preload) ∧
    (runExtracts snaps ⟨preload, [], c0⟩).existing_links
      = preload ++ (runExtracts snaps ⟨preload, [], c0⟩).rows.map rowKey := by
  have h := exInv_runExtracts preload snaps ⟨preload, [], c0⟩ (exInv_init preload c0)
  exact ⟨h.2.1, h.2.2.1, h.1⟩

/-- Witness for C1 at a concrete preload and snapshot sequence. -/
theorem c1_dedup_invariant_witness :
    rowKey [NAstr, NAstr, NAstr, "https://www.linkedin.com/jobs/view/11/".toList, NAstr]
      ∉ ["k0".toList] :=
  (c1_dedup_invariant ["k0".toList] 0
    [Snapshot.page [⟨none, none, none,
      some "https://www.linkedin.com/jobs/view/11/".toList, none⟩]]).2.1
    _ (by decide)

-- ### C4: link-less candidates and the N/A sentinel

theorem normalize_NA : normalize_linkedin_job_url NAstr = NAstr := by decide

/-- C4 counterexample: two consecutive candidates with no link element.
Both resolve to the sentinel key `"N/A"`; the first is appended and adds
`"N/A"` to the seen-set, so the second is skipped as a duplicate — only one
row is emitted where the claim requires two. -/
theorem c4_counterexample :
    ((extract_and_save_jobs
        (Snapshot.page [⟨none, none, none, none, none⟩, ⟨none, none, none, none, none⟩])
        ⟨[], [], 0⟩).1).rows
      = [[NAstr, NAstr, NAstr, NAstr, NAstr]] ∧
    ((extract_and_save_jobs
        (Snapshot.page [⟨none, none, none, none, none⟩, ⟨none, none, none, none, none⟩])
        ⟨[], [], 0⟩).1).counter = 1 := by
  constructor
  · decide
  · decide

/-- C4 amended: a candidate lacking a link is given the sentinel key
`"N/A"`; it is appended exactly when that sentinel is not yet in the
seen-set, and once a sentinel row exists every later link-less candidate is
deduplicated against it and skipped. -/
theorem c4_amended (st : ExtractState) (card : JobCard) (h : card.href = none) :
    (NAstr ∉ st.existing_links →
      processCard st card =
        { existing_links := st.existing_links ++ [NAstr],
          rows := st.rows ++
            [[fieldOrNA card.title, fieldOrNA card.company, fieldOrNA card.location,
              NAstr, fieldOrNA card.postTime]],
          counter := st.counter + 1 }) ∧
    (NAstr ∈ st.existing_links → processCard st card = st) := by
  have hfield : fieldOrNA card.href = NAstr := by rw [h]; rfl
  constructor
  · intro hnot
    rw [processCard_eq, hfield, normalize_NA, if_pos ⟨by decide, hnot⟩]
  · intro hmem
    rw [processCard_eq, hfield, normalize_NA,
      if_neg (fun hc => hc.2 hmem)]

/-- Witness for the amended C4 at a concrete state and card. -/
theorem c4_amended_witness :
    processCard ⟨[], [], 0⟩ ⟨none, none, none, none, none⟩
      = ⟨[NAstr], [[NAstr, NAstr, NAstr, NAstr, NAstr]], 1⟩ :=
  (c4_amended ⟨[], [], 0⟩ ⟨none, none, none, none, none⟩ rfl).1 (by decide)

-- ### The CSV store and get_existing_job_links

def linkHeader : Str := "Link".toList

/-- The fixed header row written by `scrape_linkedin_jobs` (line 243). -/
def csvHeaders : List Str :=
  ["Title".toList, "Company".toList, "Location".toList, linkHeader, "Post Time".toList]

/-- The backing CSV resource as `get_existing_job_links` can encounter it:
missing, present but raising on open/parse, or a parsed table of a header
row plus data rows. -/
inductive CsvResource
  | absent
  | unreadable
  | table (header : List Str) (rows : List (List Str))
deriving DecidableEq

/-- Function `get_existing_job_links` (lines 71-93): an absent file gives the empty
set; any exception while opening or reading is caught (line 91) and the
links accumulated so far are returned — nothing, when the file cannot even
be opened or parsed; a header without a `Link` column gives the empty set
(line 84); otherwise every row long enough to have the link column
contributes its normalized link, added set-wise. -/
def get_existing_job_links (r : CsvResource) : List Str :=
  match r with
  | .absent => []
  | .unreadable => []
  | .table header rows =>
    match header.findIdx? (fun h => h == linkHeader) with
    | none => []
    | some link_index =>
      rows.foldl (fun acc row =>
        if link_index < row.length then
          if normalize_linkedin_job_url (row.getD link_index []) ∈ acc then acc
          else acc ++ [normalize_linkedin_job_url (row.getD link_index [])]
        else acc) []

inductive StoreError
  | storeUnreadable
deriving DecidableEq

/-- Modelled from the spec (section 4.2), as the refinement target for C9:
`load_seen_identities` "fails with StoreUnreadable if the backing resource
exists but cannot be parsed; treats resource-does-not-exist as an empty
set, not an error". -/
def load_seen_identities_contract (r : CsvResource) : Except StoreError (List Str) :=
  match r with
  | .absent => Except.ok []
  | .unreadable => Except.error StoreError.storeUnreadable
  | .table header rows => Except.ok (get_existing_job_links (.table header rows))

/-- C9 counterexample: on a store that exists but cannot be parsed, the
code's loader catches the exception and returns the empty set as an
ordinary value — it does not fail with `StoreUnreadable` as the claim
requires, diverging from the spec's contract at this input. -/
theorem c9_counterexample :
    get_existing_job_links CsvResource.unreadable = [] ∧
    load_seen_identities_contract CsvResource.unreadable
      = Except.error StoreError.storeUnreadable ∧
    (Except.ok (get_existing_job_links CsvResource.unreadable) : Except StoreError (List Str))
      ≠ load_seen_identities_contract CsvResource.unreadable :=
  ⟨rfl, rfl, fun h => Except.noConfusion h⟩

/-- C9 amended: loading seen identities never fails — an absent file and an
unreadable file both yield the empty set (the latter after logging), and a
parseable file whose header lacks the `Link` column also degrades to the
empty set. -/
theorem c9_amended :
    get_existing_job_links CsvResource.absent = [] ∧
    get_existing_job_links CsvResource.unreadable = [] ∧
    (∀ header rows, header.findIdx? (fun h => h == linkHeader) = none →
      get_existing_job_links (CsvResource.table header rows) = []) := by
  refine ⟨rfl, rfl, ?_⟩
  intro header rows hnone
  simp only [get_existing_job_links]
  rw [hnone]

/-- Witness for the amended C9 at a concrete malformed header. -/
theorem c9_amended_witness :
    get_existing_job_links (CsvResource.table ["X".toList] [["y".toList]]) = [] :=
  c9_amended.2.2 ["X".toList] [["y".toList]] (by decide)

-- ### C10: the store holds normalized keys and reloading reconstructs them

theorem loader_fold_eq :
    ∀ (rows : List (List Str)) (acc : List Str),
      (∀ r ∈ rows, 3 < r.length) →
      (∀ r ∈ rows, normalize_linkedin_job_url (rowKey r) = rowKey r) →
      (acc ++ rows.map rowKey).Nodup →
      rows.foldl (fun acc row =>
        if 3 < row.length then
          if normalize_linkedin_job_url (row.getD 3 []) ∈ acc then acc
          else acc ++ [normalize_linkedin_job_url (row.getD 3 [])]
        else acc) acc = acc ++ rows.map rowKey := by
  intro rows
  induction rows with
  | nil => intro acc _ _ _; simp
  | cons r rs ih =>
    intro acc hlen hnorm hnd
    have hkey : normalize_linkedin_job_url (r.getD 3 []) = rowKey r := hnorm r (by simp)
    have hnotin : rowKey r ∉ acc := by
      intro hmem
      rw [List.nodup_append] at hnd
      exact hnd.2.2 hmem (by simp)
    simp only [List.foldl_cons]
    rw [if_pos (hlen r (by simp)), hkey, if_neg hnotin]
    have hstep := ih (acc ++ [rowKey r])
      (fun x hx => hlen x (by simp [hx]))
      (fun x hx => hnorm x (by simp [hx]))
      (by
        rw [List.append_assoc]
        simpa using hnd)
    rw [hstep, List.append_assoc]
    rfl

/-- Reloading a CSV written with the standard header and normalized,
pairwise-distinct keys reconstructs exactly those keys, in order. -/
theorem loader_roundtrip (rows : List (List Str))
    (hlen : ∀ r ∈ rows, 3 < r.length)
    (hnorm : ∀ r ∈ rows, normalize_linkedin_job_url (rowKey r) = rowKey r)
    (hnd : (rows.map rowKey).Nodup) :
    get_existing_job_links (.table csvHeaders rows) = rows.map rowKey := by
  have hidx : csvHeaders.findIdx? (fun h => h == linkHeader) = some 3 := by decide
  simp only [get_existing_job_links]
  rw [hidx]
  have := loader_fold_eq rows [] hlen hnorm (by simpa using hnd)
  simpa using this

/-- C10: every Link value written to the CSV is already in normalized form
(the writer emits the normalized link), the seen-set is exactly the preload
followed by the appended keys, and re-loading the appended rows through
`get_existing_job_links` (which normalizes each Link column value)
reconstructs exactly the keys that were checked at append time. -/
theorem c10_store_normalization (preload : List Str) (c0 : Nat) (snaps : List Snapshot) :
    (∀ r ∈ (runExtracts snaps ⟨preload, [], c0⟩).rows,
      normalize_linkedin_job_url (rowKey r) = rowKey r) ∧
    (runExtracts snaps ⟨preload, [], c0⟩).existing_links
      = preload ++ (runExtracts snaps ⟨preload, [], c0⟩).rows.map rowKey ∧
    get_existing_job_links
        (.table csvHeaders (runExtracts snaps ⟨preload, [], c0⟩).rows)
      = (runExtracts snaps ⟨preload, [], c0⟩).rows.map rowKey := by
  have h := exInv_runExtracts preload snaps ⟨preload, [], c0⟩ (exInv_init preload c0)
  refine ⟨h.2.2.2.1, h.1, ?_⟩
  exact loader_roundtrip _
    (fun r hr => by rw [h.2.2.2.2 r hr]; omega)
    h.2.2.2.1 h.2.1

/-- Witness for C10 at a concrete snapshot sequence (a link carrying
tracking parameters that the writer strips before persisting). -/
theorem c10_store_normalization_witness :
    get_existing_job_links
        (.table csvHeaders
          (runExtracts [Snapshot.page [⟨none, none, none,
            some "https://www.linkedin.com/jobs/view/22/?refId=abc".toList, none⟩]]
            ⟨[], [], 0⟩).rows)
      = (runExtracts [Snapshot.page [⟨none, none, none,
          some "https://www.linkedin.com/jobs/view/22/?refId=abc".toList, none⟩]]
          ⟨[], [], 0⟩).rows.map rowKey :=
  (c10_store_normalization [] 0 [Snapshot.page [⟨none, none, none,
    some "https://www.linkedin.com/jobs/view/22/?refId=abc".toList, none⟩]]).2.2

-- ### The main loop of scrape_linkedin_jobs

/-- Observable events of a run, in order: a step's batch of rows being
written to the CSV, and `save_progress` persisting a step number. -/
inductive Event
  | wrote (step : Nat) (rows : List (List Str))
  | saved (step : Nat)
deriving DecidableEq

/-- What the browser supplies to one iteration of the main loop: whether
the "See more jobs" click succeeded this step (lines 334-350), and the
page content at extraction time (line 354). -/
structure StepEnv where
  clicked_see_more : Bool
  snap : Snapshot

/-- Loop-level state of `scrape_linkedin_jobs`: the extraction state, the
last observed page total (`last_total_jobs_on_page`), the stall counter
(`no_new_jobs_consecutive_scrolls`), the last value written by
`save_progress`, plus model bookkeeping: the event trace and the attempt
numbers of the loop steps executed. -/
structure LoopState where
  ex : ExtractState
  lastTotal : Nat
  stall : Nat
  progress : Nat
  trace : List Event
  stepsRun : List Nat

def MAX_NO_NEW_JOBS_CONSECUTIVE_SCROLLS : Nat := 5

/-- The stall-reset condition of lines 359-362: the visible total grew, or
new rows were persisted this step, or the "See more jobs" button was
clicked. -/
def stepProgressed (e : StepEnv) (st : LoopState) : Prop :=
  st.lastTotal < (extract_and_save_jobs e.snap st.ex).2 ∨
  st.ex.counter < (extract_and_save_jobs e.snap st.ex).1.counter ∨
  e.clicked_see_more = true

instance (e : StepEnv) (st : LoopState) : Decidable (stepProgressed e st) := by
  unfold stepProgressed
  infer_instance

/-- One iteration of the main for-loop body (lines 324-378): extract, then
reset the stall counter when progress was made, otherwise increment it and
`break` at the threshold — the `break` happens before the
`last_total_jobs_on_page` update (line 372) and before `save_progress`
(line 375), which run only on non-breaking iterations.  Returns the new
state and whether the loop broke. -/
def loopStep (e : StepEnv) (attempt : Nat) (st : LoopState) : LoopState × Bool :=
  let p := extract_and_save_jobs e.snap st.ex
  let base : LoopState :=
    { st with
      ex := p.1,
      trace := st.trace ++ [Event.wrote attempt (p.1.rows.drop st.ex.rows.length)],
      stepsRun := st.stepsRun ++ [attempt] }
  if st.lastTotal < p.2 ∨ st.ex.counter < p.1.counter ∨ e.clicked_see_more = true then
    ({ base with
        stall := 0, lastTotal := p.2, progress := attempt,
        trace := base.trace ++ [Event.saved attempt] }, false)
  else
    if MAX_NO_NEW_JOBS_CONSECUTIVE_SCROLLS ≤ st.stall + 1 then
      ({ base with stall := st.stall + 1 }, true)
    else
      ({ base with
          stall := st.stall + 1, lastTotal := p.2, progress := attempt,
          trace := base.trace ++ [Event.saved attempt] }, false)

/-- The loop `for current_scroll_attempt in range(start, max + 1)`
(line 324), with enough fuel to cover the range. -/
def runFrom (env : Nat → StepEnv) (maxA : Nat) : Nat → Nat → LoopState → LoopState
  | 0, _, st => st
  | fuel + 1, attempt, st =>
    if maxA < attempt then st
    else
      let r := loopStep (env attempt) attempt st
      if r.2 then r.1 else runFrom env maxA fuel (attempt + 1) r.1

/-- The checkpoint file as `load_progress` can encounter it. -/
inductive ProgressFile
  | absent
  | unreadable
  | stored (k : Nat)
deriving DecidableEq

/-- Function `load_progress` (lines 36-46): the stored page count, or 0 when the
file is missing or cannot be parsed. -/
def load_progress : ProgressFile → Nat
  | .absent => 0
  | .unreadable => 0
  | .stored k => k

/-- Function `scrape_linkedin_jobs` (lines 206-405), with driver setup, navigation
and pop-up handling elided: load the seen-set and checkpoint; when
starting fresh (`start_scroll_attempt == 1`, lines 305-309) run the
initial extraction and checkpoint step 1; in resume mode (lines 311-315)
set `scraped_job_count` to the preloaded seen-set size, run the baseline
extraction and discard its returned counter (its rows are still written);
then run the main loop from `completed_scrolls + 1`.  The final state's
`ex.counter` is the function's return value (line 405); `progress` is the
last value passed to `save_progress`. -/
def scrape_linkedin_jobs (pf : ProgressFile) (csvr : CsvResource)
    (initialSnap : Snapshot) (env : Nat → StepEnv) (max_scroll_attempts : Nat) :
    LoopState :=
  let existing_links := get_existing_job_links csvr
  let completed_scrolls := load_progress pf
  let start_scroll_attempt := completed_scrolls + 1
  if start_scroll_attempt = 1 then
    let p := extract_and_save_jobs initialSnap ⟨existing_links, [], 0⟩
    runFrom env max_scroll_attempts
      (max_scroll_attempts + 1 - start_scroll_attempt) start_scroll_attempt
      { ex := p.1, lastTotal := p.2, stall := 0, progress := 1,
        trace := [Event.wrote 1 p.1.rows, Event.saved 1], stepsRun := [] }
  else
    let p := extract_and_save_jobs initialSnap
      ⟨existing_links, [], existing_links.length⟩
    runFrom env max_scroll_attempts
      (max_scroll_attempts + 1 - start_scroll_attempt) start_scroll_attempt
      { ex := { existing_links := p.1.existing_links, rows := p.1.rows,
                counter := existing_links.length },
        lastTotal := p.2, stall := 0, progress := completed_scrolls,
        trace := [Event.wrote 0 p.1.rows], stepsRun := [] }

-- ### Basic shape lemmas about one loop step

theorem loopStep_ex (e : StepEnv) (a : Nat) (st : LoopState) :
    (loopStep e a st).1.ex = (extract_and_save_jobs e.snap st.ex).1 := by
  simp only [loopStep]
  by_cases hc : stepProgressed e st
  all_goals unfold stepProgressed at hc
  · rw [if_pos hc]
  · rw [if_neg hc]
    by_cases hb : MAX_NO_NEW_JOBS_CONSECUTIVE_SCROLLS ≤ st.stall + 1
    · rw [if_pos hb]
    · rw [if_neg hb]

theorem loopStep_stepsRun (e : StepEnv) (a : Nat) (st : LoopState) :
    (loopStep e a st).1.stepsRun = st.stepsRun ++ [a] := by
  simp only [loopStep]
  by_cases hc : stepProgressed e st
  all_goals unfold stepProgressed at hc
  · rw [if_pos hc]
  · rw [if_neg hc]
    by_cases hb : MAX_NO_NEW_JOBS_CONSECUTIVE_SCROLLS ≤ st.stall + 1
    · rw [if_pos hb]
    · rw [if_neg hb]

theorem loopStep_trace (e : StepEnv) (a : Nat) (st : LoopState) :
    ∃ chunk, (loopStep e a st).1.trace = st.trace ++ chunk := by
  simp only [loopStep]
  by_cases hc : stepProgressed e st
  all_goals unfold stepProgressed at hc
  · rw [if_pos hc]
    exact ⟨_, by rw [List.append_assoc]⟩
  · rw [if_neg hc]
    by_cases hb : MAX_NO_NEW_JOBS_CONSECUTIVE_SCROLLS ≤ st.stall + 1
    · rw [if_pos hb]
      exact ⟨_, rfl⟩
    · rw [if_neg hb]
      exact ⟨_, by rw [List.append_assoc]⟩

theorem loopStep_progress_eq (e : StepEnv) (a : Nat) (st : LoopState)
    (hc : stepProgressed e st) :
    loopStep e a st =
      ({ st with
          ex := (extract_and_save_jobs e.snap st.ex).1,
          lastTotal := (extract_and_save_jobs e.snap st.ex).2,
          stall := 0,
          progress := a,
          trace := (st.trace ++
            [Event.wrote a
              ((extract_and_save_jobs e.snap st.ex).1.rows.drop st.ex.rows.length)]) ++
            [Event.saved a],
          stepsRun := st.stepsRun ++ [a] }, false) := by
  unfold stepProgressed at hc
  simp only [loopStep]
  rw [if_pos hc]

theorem loopStep_stall_break_eq (e : StepEnv) (a : Nat) (st : LoopState)
    (hc : ¬ stepProgressed e st)
    (hthr : MAX_NO_NEW_JOBS_CONSECUTIVE_SCROLLS ≤ st.stall + 1) :
    loopStep e a st =
      ({ st with
          ex := (extract_and_save_jobs e.snap st.ex).1,
          stall := st.stall + 1,
          trace := st.trace ++
            [Event.wrote a
              ((extract_and_save_jobs e.snap st.ex).1.rows.drop st.ex.rows.length)],
          stepsRun := st.stepsRun ++ [a] }, true) := by
  unfold stepProgressed at hc
  simp only [loopStep]
  rw [if_neg hc, if_pos hthr]

theorem loopStep_stall_cont_eq (e : StepEnv) (a : Nat) (st : LoopState)
    (hc : ¬ stepProgressed e st)
    (hthr : ¬ MAX_NO_NEW_JOBS_CONSECUTIVE_SCROLLS ≤ st.stall + 1) :
    loopStep e a st =
      ({ st with
          ex := (extract_and_save_jobs e.snap st.ex).1,
          lastTotal := (extract_and_save_jobs e.snap st.ex).2,
          stall := st.stall + 1,
          progress := a,
          trace := (st.trace ++
            [Event.wrote a
              ((extract_and_save_jobs e.snap st.ex).1.rows.drop st.ex.rows.length)]) ++
            [Event.saved a],
          stepsRun := st.stepsRun ++ [a] }, false) := by
  unfold stepProgressed at hc
  simp only [loopStep]
  rw [if_neg hc, if_neg hthr]

/-- Any per-step-preserved property of the loop state is preserved by the
whole loop. -/
theorem runFrom_inv (P : LoopState → Prop) (env : Nat → StepEnv) (maxA a0 : Nat)
    (hstep : ∀ e a st, a0 ≤ a → a ≤ maxA → P st → P (loopStep e a st).1) :
    ∀ fuel a st, a0 ≤ a → P st → P (runFrom env maxA fuel a st) := by
  intro fuel
  induction fuel with
  | zero => intro a st _ h; exact h
  | succ fuel ih =>
    intro a st ha h
    simp only [runFrom]
    by_cases hm : maxA < a
    · rw [if_pos hm]; exact h
    · rw [if_neg hm]
      have h1 := hstep (env a) a st ha (Nat.le_of_not_lt hm) h
      by_cases hb : (loopStep (env a) a st).2 = true
      · rw [if_pos hb]; exact h1
      · rw [if_neg hb]
        exact ih (a + 1) _ (Nat.le_succ_of_le ha) h1

/-- Loop steps executed by `runFrom` stay within the configured range. -/
theorem runFrom_steps_bound (env : Nat → StepEnv) (maxA : Nat) :
    ∀ fuel a st n, n ∈ (runFrom env maxA fuel a st).stepsRun →
      n ∈ st.stepsRun ∨ (a ≤ n ∧ n ≤ maxA) := by
  intro fuel
  induction fuel with
  | zero => intro a st n h; exact Or.inl h
  | succ fuel ih =>
    intro a st n h
    simp only [runFrom] at h
    by_cases hm : maxA < a
    · rw [if_pos hm] at h; exact Or.inl h
    · rw [if_neg hm] at h
      by_cases hb : (loopStep (env a) a st).2 = true
      · rw [if_pos hb, loopStep_stepsRun] at h
        rcases List.mem_append.mp h with h | h
        · exact Or.inl h
        · simp only [List.mem_singleton] at h
          subst h
          exact Or.inr ⟨le_refl _, Nat.le_of_not_lt hm⟩
      · rw [if_neg hb] at h
        rcases ih (a + 1) _ n h with h | h
        · rw [loopStep_stepsRun] at h
          rcases List.mem_append.mp h with h | h
          · exact Or.inl h
          · simp only [List.mem_singleton] at h
            subst h
            exact Or.inr ⟨le_refl _, Nat.le_of_not_lt hm⟩
        · exact Or.inr ⟨by omega, h.2⟩

theorem runFrom_stepsRun_append (env : Nat → StepEnv) (maxA : Nat) :
    ∀ fuel a st, ∃ l, (runFrom env maxA fuel a st).stepsRun = st.stepsRun ++ l := by
  intro fuel
  induction fuel with
  | zero => intro a st; exact ⟨[], by simp [runFrom]⟩
  | succ fuel ih =>
    intro a st
    simp only [runFrom]
    by_cases hm : maxA < a
    · rw [if_pos hm]; exact ⟨[], by simp⟩
    · rw [if_neg hm]
      by_cases hb : (loopStep (env a) a st).2 = true
      · rw [if_pos hb, loopStep_stepsRun]; exact ⟨[a], rfl⟩
      · rw [if_neg hb]
        obtain ⟨l, hl⟩ := ih (a + 1) (loopStep (env a) a st).1
        rw [hl, loopStep_stepsRun, List.append_assoc]
        exact ⟨[a] ++ l, rfl⟩

theorem runFrom_trace_append (env : Nat → StepEnv) (maxA : Nat) :
    ∀ fuel a st, ∃ l, (runFrom env maxA fuel a st).trace = st.trace ++ l := by
  intro fuel
  induction fuel with
  | zero => intro a st; exact ⟨[], by simp [runFrom]⟩
  | succ fuel ih =>
    intro a st
    simp only [runFrom]
    by_cases hm : maxA < a
    · rw [if_pos hm]; exact ⟨[], by simp⟩
    · rw [if_neg hm]
      by_cases hb : (loopStep (env a) a st).2 = true
      · rw [if_pos hb]
        obtain ⟨c, hc⟩ := loopStep_trace (env a) a st
        rw [hc]; exact ⟨c, rfl⟩
      · rw [if_neg hb]
        obtain ⟨l, hl⟩ := ih (a + 1) (loopStep (env a) a st).1
        obtain ⟨c, hc⟩ := loopStep_trace (env a) a st
        rw [hl, hc, List.append_assoc]
        exact ⟨c ++ l, rfl⟩

/-- The first loop step `runFrom` executes is its starting attempt. -/
theorem runFrom_first (env : Nat → StepEnv) (maxA fuel a : Nat) (st : LoopState)
    (h : a ≤ maxA) (hst : st.stepsRun = []) (hf : 1 ≤ fuel) :
    (runFrom env maxA fuel a st).stepsRun.head? = some a := by
  cases fuel with
  | zero => omega
  | succ fuel =>
    simp only [runFrom]
    rw [if_neg (Nat.not_lt.mpr h)]
    by_cases hb : (loopStep (env a) a st).2 = true
    · rw [if_pos hb, loopStep_stepsRun, hst]
      rfl
    · rw [if_neg hb]
      obtain ⟨l, hl⟩ := runFrom_stepsRun_append env maxA fuel (a + 1) (loopStep (env a) a st).1
      rw [hl, loopStep_stepsRun, hst]
      rfl

/-- Exact stall termination: from a state whose extraction is inert for a
constant environment (nothing grows, nothing new persists, no click), the
loop executes exactly the `r` remaining steps before the stall threshold
and then breaks. -/
theorem runFrom_inert (env : Nat → StepEnv) (maxA : Nat) (e0 : StepEnv) (t0 : Nat)
    (hclk : e0.clicked_see_more = false) :
    ∀ r a fuel (st : LoopState),
      (∀ i, a ≤ i → env i = e0) →
      extract_and_save_jobs e0.snap st.ex = (st.ex, t0) →
      t0 ≤ st.lastTotal →
      st.stall + r = MAX_NO_NEW_JOBS_CONSECUTIVE_SCROLLS →
      1 ≤ r →
      a + r ≤ maxA + 1 →
      r ≤ fuel →
      (runFrom env maxA fuel a st).stepsRun = st.stepsRun ++ List.range' a r := by
  intro r
  induction r with
  | zero => intro a fuel st _ _ _ _ h1 _ _; omega
  | succ r ih =>
    intro a fuel st henv hext hlt hstall _ hmax hfuel
    cases fuel with
    | zero => omega
    | succ fuel =>
      have ha : ¬ maxA < a := by omega
      have hnp : ¬ stepProgressed e0 st := by
        unfold stepProgressed
        rintro (h | h | h)
        · rw [hext] at h
          simp at h
          omega
        · rw [hext] at h
          simp at h
        · rw [hclk] at h
          exact Bool.false_ne_true h
      simp only [runFrom]
      rw [if_neg ha, henv a (le_refl a)]
      by_cases hr0 : r = 0
      · subst hr0
        have hthr : MAX_NO_NEW_JOBS_CONSECUTIVE_SCROLLS ≤ st.stall + 1 := by omega
        rw [loopStep_stall_break_eq e0 a st hnp hthr]
        simp [List.range']
      · have hthr : ¬ MAX_NO_NEW_JOBS_CONSECUTIVE_SCROLLS ≤ st.stall + 1 := by
          unfold MAX_NO_NEW_JOBS_CONSECUTIVE_SCROLLS at hstall ⊢
          omega
        have hcont : loopStep e0 a st =
            ({ st with
                ex := st.ex,
                lastTotal := t0,
                stall := st.stall + 1,
                progress := a,
                trace := (st.trace ++
                  [Event.wrote a (st.ex.rows.drop st.ex.rows.length)]) ++
                  [Event.saved a],
                stepsRun := st.stepsRun ++ [a] }, false) := by
          rw [loopStep_stall_cont_eq e0 a st hnp hthr, hext]
        have hrec := ih (a + 1) fuel
          { st with
              lastTotal := t0,
              stall := st.stall + 1,
              progress := a,
              trace := (st.trace ++
                [Event.wrote a (st.ex.rows.drop st.ex.rows.length)]) ++
                [Event.saved a],
              stepsRun := st.stepsRun ++ [a] }
          (fun i hi => henv i (by omega)) hext (le_refl t0)
          (by show st.stall + 1 + r = MAX_NO_NEW_JOBS_CONSECUTIVE_SCROLLS; omega)
          (Nat.pos_of_ne_zero hr0) (by omega) (by omega)
        rw [hcont]
        rw [if_neg (by simp)]
        show (runFrom env maxA fuel (a + 1)
          { st with
              lastTotal := t0,
              stall := st.stall + 1,
              progress := a,
              trace := (st.trace ++
                [Event.wrote a (st.ex.rows.drop st.ex.rows.length)]) ++
                [Event.saved a],
              stepsRun := st.stepsRun ++ [a] }).stepsRun
          = st.stepsRun ++ List.range' a (r + 1)
        rw [hrec]
        show (st.stepsRun ++ [a]) ++ List.range' (a + 1) r
          = st.stepsRun ++ List.range' a (r + 1)
        rw [List.append_assoc]
        rfl

theorem loopStep_stall (e : StepEnv) (a : Nat) (st : LoopState) :
    (loopStep e a st).1.stall
      = if stepProgressed e st then 0 else st.stall + 1 := by
  by_cases hc : stepProgressed e st
  · rw [loopStep_progress_eq e a st hc, if_pos hc]
  · rw [if_neg hc]
    by_cases hb : MAX_NO_NEW_JOBS_CONSECUTIVE_SCROLLS ≤ st.stall + 1
    · rw [loopStep_stall_break_eq e a st hc hb]
    · rw [loopStep_stall_cont_eq e a st hc hb]

theorem loopStep_break (e : StepEnv) (a : Nat) (st : LoopState) :
    (loopStep e a st).2 = true ↔
      (¬ stepProgressed e st ∧ MAX_NO_NEW_JOBS_CONSECUTIVE_SCROLLS ≤ st.stall + 1) := by
  constructor
  · intro h
    by_cases hc : stepProgressed e st
    · rw [loopStep_progress_eq e a st hc] at h
      exact Bool.noConfusion h
    · by_cases hb : MAX_NO_NEW_JOBS_CONSECUTIVE_SCROLLS ≤ st.stall + 1
      · exact ⟨hc, hb⟩
      · rw [loopStep_stall_cont_eq e a st hc hb] at h
        exact Bool.noConfusion h
  · rintro ⟨hc, hb⟩
    rw [loopStep_stall_break_eq e a st hc hb]

/-- C2: (a) the stall counter is incremented on a step exactly when none of
the three progress conditions holds (visible total grew, new records
persisted, see-more clicked) and is reset to 0 otherwise; (b) the loop
breaks on a step exactly when it did not progress and the incremented
counter reaches the threshold 5; (c) loop steps never run beyond the
configured maximum attempt; (d) under a source that never grows and never
yields new records or button clicks, a loop whose stall counter is 0
executes exactly 5 further steps and then terminates. -/
theorem c2_stall_termination :
    (∀ (e : StepEnv) (a : Nat) (st : LoopState),
      (loopStep e a st).1.stall
        = if stepProgressed e st then 0 else st.stall + 1) ∧
    (∀ (e : StepEnv) (a : Nat) (st : LoopState),
      (loopStep e a st).2 = true ↔
        (¬ stepProgressed e st ∧
          MAX_NO_NEW_JOBS_CONSECUTIVE_SCROLLS ≤ st.stall + 1)) ∧
    (∀ (env : Nat → StepEnv) (maxA fuel a : Nat) (st : LoopState) (n : Nat),
      n ∈ (runFrom env maxA fuel a st).stepsRun →
        n ∈ st.stepsRun ∨ (a ≤ n ∧ n ≤ maxA)) ∧
    (∀ (env : Nat → StepEnv) (maxA : Nat) (e0 : StepEnv) (t0 a fuel : Nat)
        (st : LoopState),
      e0.clicked_see_more = false →
      (∀ i, a ≤ i → env i = e0) →
      extract_and_save_jobs e0.snap st.ex = (st.ex, t0) →
      t0 ≤ st.lastTotal →
      st.stall = 0 →
      a + 5 ≤ maxA + 1 →
      5 ≤ fuel →
      (runFrom env maxA fuel a st).stepsRun
        = st.stepsRun ++ [a, a + 1, a + 2, a + 3, a + 4]) := by
  refine ⟨loopStep_stall, loopStep_break, runFrom_steps_bound, ?_⟩
  intro env maxA e0 t0 a fuel st hclk henv hext hlt hstall hmax hfuel
  have h := runFrom_inert env maxA e0 t0 hclk 5 a fuel st henv hext hlt
    (by rw [hstall]; rfl) (by omega) hmax hfuel
  rw [h]
  rfl

/-- Witness for C2 at a concrete never-growing environment: starting fresh
with stall counter 0, the loop runs exactly steps 1 through 5. -/
theorem c2_stall_termination_witness :
    (runFrom (fun _ => ⟨false, Snapshot.page []⟩) 10 10 1
        ⟨⟨[], [], 0⟩, 0, 0, 1, [], []⟩).stepsRun
      = ([] : List Nat) ++ [1, 2, 3, 4, 5] :=
  c2_stall_termination.2.2.2 (fun _ => ⟨false, Snapshot.page []⟩) 10
    ⟨false, Snapshot.page []⟩ 0 1 10 ⟨⟨[], [], 0⟩, 0, 0, 1, [], []⟩
    rfl (fun i _ => rfl) rfl (le_refl 0) rfl (by omega) (by omega)

/-- C3 counterexample: a fresh run over a source that never grows.  The
loop stalls on steps 1-5 and breaks on step 5 *before* `save_progress`, so
at stall-driven termination the checkpoint holds 4, not the final step
number 5 as the claim requires. -/
theorem c3_counterexample :
    (scrape_linkedin_jobs ProgressFile.absent CsvResource.absent (Snapshot.page [])
        (fun _ => ⟨false, Snapshot.page []⟩) 10).stepsRun = [1, 2, 3, 4, 5] ∧
    (scrape_linkedin_jobs ProgressFile.absent CsvResource.absent (Snapshot.page [])
        (fun _ => ⟨false, Snapshot.page []⟩) 10).progress = 4 := by
  constructor
  · decide
  · decide

/-- C3 amended: on every loop step on which extraction returns and the loop
does not break, the checkpoint is saved with that step's number; the step
on which the stall threshold is reached breaks before `save_progress`, so
it leaves the checkpoint at its previous value (the preceding step's
number at stall-driven termination). -/
theorem c3_amended (e : StepEnv) (a : Nat) (st : LoopState) :
    ((loopStep e a st).2 = false → (loopStep e a st).1.progress = a) ∧
    ((loopStep e a st).2 = true → (loopStep e a st).1.progress = st.progress) := by
  constructor
  · intro h
    by_cases hc : stepProgressed e st
    · rw [loopStep_progress_eq e a st hc]
    · by_cases hb : MAX_NO_NEW_JOBS_CONSECUTIVE_SCROLLS ≤ st.stall + 1
      · rw [loopStep_stall_break_eq e a st hc hb] at h
        exact Bool.noConfusion h
      · rw [loopStep_stall_cont_eq e a st hc hb]
  · intro h
    by_cases hc : stepProgressed e st
    · rw [loopStep_progress_eq e a st hc] at h
      exact Bool.noConfusion h
    · by_cases hb : MAX_NO_NEW_JOBS_CONSECUTIVE_SCROLLS ≤ st.stall + 1
      · rw [loopStep_stall_break_eq e a st hc hb]
      · rw [loopStep_stall_cont_eq e a st hc hb] at h
        exact Bool.noConfusion h

/-- Witness for the amended C3 at a concrete non-breaking step. -/
theorem c3_amended_witness :
    (loopStep ⟨false, Snapshot.page []⟩ 7 ⟨⟨[], [], 0⟩, 0, 0, 3, [], []⟩).1.progress = 7 :=
  (c3_amended ⟨false, Snapshot.page []⟩ 7 ⟨⟨[], [], 0⟩, 0, 0, 3, [], []⟩).1 (by decide)

-- ### C5: the returned counter versus rows persisted this run

theorem cnt_loopStep (a b : Nat) (e : StepEnv) (att : Nat) (st : LoopState)
    (h : st.ex.counter + a = b + st.ex.rows.length) :
    (loopStep e att st).1.ex.counter + a
      = b + (loopStep e att st).1.ex.rows.length := by
  rw [loopStep_ex]
  exact cnt_extract a b e.snap st.ex h

/-- C5 counterexample: a resume-mode run (checkpoint 1) over a store with 2
records, where the baseline extraction finds one genuinely new job.  The
new job's row is persisted, yet the returned counter is the preloaded
seen-set size (2), not the number of records persisted this run (1). -/
theorem c5_counterexample :
    (scrape_linkedin_jobs (ProgressFile.stored 1)
        (CsvResource.table csvHeaders
          [[NAstr, NAstr, NAstr, "https://www.linkedin.com/jobs/view/1/".toList, NAstr],
           [NAstr, NAstr, NAstr, "https://www.linkedin.com/jobs/view/2/".toList, NAstr]])
        (Snapshot.page [⟨none, none, none,
          some "https://www.linkedin.com/jobs/view/3/".toList, none⟩])
        (fun _ => ⟨false, Snapshot.page []⟩) 10).ex.counter = 2 ∧
    (scrape_linkedin_jobs (ProgressFile.stored 1)
        (CsvResource.table csvHeaders
          [[NAstr, NAstr, NAstr, "https://www.linkedin.com/jobs/view/1/".toList, NAstr],
           [NAstr, NAstr, NAstr, "https://www.linkedin.com/jobs/view/2/".toList, NAstr]])
        (Snapshot.page [⟨none, none, none,
          some "https://www.linkedin.com/jobs/view/3/".toList, none⟩])
        (fun _ => ⟨false, Snapshot.page []⟩) 10).ex.rows.length = 1 := by
  constructor
  · decide
  · decide

/-- C5 amended: in fresh-start mode the value returned by
`scrape_linkedin_jobs` equals the number of records persisted this run; in
resume mode it equals the preloaded seen-set size plus the records
persisted during main-loop steps — the rows appended by the resume
baseline extraction are persisted but never counted. -/
theorem c5_amended (pf : ProgressFile) (csvr : CsvResource) (snap : Snapshot)
    (env : Nat → StepEnv) (maxA : Nat) :
    (load_progress pf = 0 →
      (scrape_linkedin_jobs pf csvr snap env maxA).ex.counter
        = (scrape_linkedin_jobs pf csvr snap env maxA).ex.rows.length) ∧
    (0 < load_progress pf →
      (scrape_linkedin_jobs pf csvr snap env maxA).ex.counter
          + (extract_and_save_jobs snap
              ⟨get_existing_job_links csvr, [],
                (get_existing_job_links csvr).length⟩).1.rows.length
        = (get_existing_job_links csvr).length
          + (scrape_linkedin_jobs pf csvr snap env maxA).ex.rows.length) := by
  constructor
  · intro h0
    have hcond : load_progress pf + 1 = 1 := by omega
    simp only [scrape_linkedin_jobs]
    rw [if_pos hcond]
    exact runFrom_inv (fun s => s.ex.counter = s.ex.rows.length) env maxA 0
      (fun e a' st' _ _ hh => by
        have h2 := cnt_loopStep 0 0 e a' st' (by omega)
        omega)
      _ _ _ (Nat.zero_le _)
      (by
        show (extract_and_save_jobs snap ⟨get_existing_job_links csvr, [], 0⟩).1.counter
          = (extract_and_save_jobs snap ⟨get_existing_job_links csvr, [], 0⟩).1.rows.length
        have h2 := cnt_extract 0 0 snap ⟨get_existing_job_links csvr, [], 0⟩ rfl
        omega)
  · intro h0
    have hcond : ¬ (load_progress pf + 1 = 1) := by omega
    simp only [scrape_linkedin_jobs]
    rw [if_neg hcond]
    exact runFrom_inv (fun s =>
        s.ex.counter
            + (extract_and_save_jobs snap
                ⟨get_existing_job_links csvr, [],
                  (get_existing_job_links csvr).length⟩).1.rows.length
          = (get_existing_job_links csvr).length + s.ex.rows.length)
      env maxA 0
      (fun e a' st' _ _ hh => cnt_loopStep _ _ e a' st' hh)
      _ _ _ (Nat.zero_le _) rfl

/-- Witness for the amended C5 at a concrete fresh-start run. -/
theorem c5_amended_witness :
    (scrape_linkedin_jobs ProgressFile.absent CsvResource.absent (Snapshot.page [])
        (fun _ => ⟨false, Snapshot.page []⟩) 3).ex.counter
      = (scrape_linkedin_jobs ProgressFile.absent CsvResource.absent (Snapshot.page [])
        (fun _ => ⟨false, Snapshot.page []⟩) 3).ex.rows.length :=
  (c5_amended ProgressFile.absent CsvResource.absent (Snapshot.page [])
    (fun _ => ⟨false, Snapshot.page []⟩) 3).1 rfl

-- ### C7: resume correctness

theorem exInv_loopStep (L0 : List Str) (e : StepEnv) (att : Nat) (st : LoopState)
    (h : ExInv L0 st.ex) : ExInv L0 (loopStep e att st).1.ex := by
  rw [loopStep_ex]
  exact exInv_extract L0 e.snap st.ex h

/-- The store invariant holds for the final state of a whole run, relative
to the keys loaded from the store at startup. -/
theorem exInv_scrape (pf : ProgressFile) (csvr : CsvResource) (snap : Snapshot)
    (env : Nat → StepEnv) (maxA : Nat) :
    ExInv (get_existing_job_links csvr)
      (scrape_linkedin_jobs pf csvr snap env maxA).ex := by
  simp only [scrape_linkedin_jobs]
  by_cases hc : load_progress pf + 1 = 1
  · rw [if_pos hc]
    exact runFrom_inv (fun s => ExInv (get_existing_job_links csvr) s.ex) env maxA 0
      (fun e a st _ _ h => exInv_loopStep _ e a st h)
      _ _ _ (Nat.zero_le _)
      (exInv_extract _ snap _ (exInv_init _ 0))
  · rw [if_neg hc]
    exact runFrom_inv (fun s => ExInv (get_existing_job_links csvr) s.ex) env maxA 0
      (fun e a st _ _ h => exInv_loopStep _ e a st h)
      _ _ _ (Nat.zero_le _)
      (exInv_extract _ snap _ (exInv_init _ (get_existing_job_links csvr).length))

theorem loaderFold_sub (i : Nat) :
    ∀ (rows : List (List Str)) (acc : List Str) (x : Str), x ∈ acc →
      x ∈ rows.foldl (fun acc row =>
        if i < row.length then
          if normalize_linkedin_job_url (row.getD i []) ∈ acc then acc
          else acc ++ [normalize_linkedin_job_url (row.getD i [])]
        else acc) acc := by
  intro rows
  induction rows with
  | nil => intro acc x h; exact h
  | cons r rs ih =>
    intro acc x h
    simp only [List.foldl_cons]
    apply ih
    by_cases h1 : i < r.length
    · rw [if_pos h1]
      by_cases h2 : normalize_linkedin_job_url (r.getD i []) ∈ acc
      · rw [if_pos h2]; exact h
      · rw [if_neg h2]; exact List.mem_append_left _ h
    · rw [if_neg h1]; exact h

theorem loaderFold_mem (i : Nat) :
    ∀ (rows : List (List Str)) (acc : List Str) (srow : List Str),
      srow ∈ rows → i < srow.length →
      normalize_linkedin_job_url (srow.getD i [])
        ∈ rows.foldl (fun acc row =>
            if i < row.length then
              if normalize_linkedin_job_url (row.getD i []) ∈ acc then acc
              else acc ++ [normalize_linkedin_job_url (row.getD i [])]
            else acc) acc := by
  intro rows
  induction rows with
  | nil => intro acc srow h _; exact absurd h (List.not_mem_nil _)
  | cons r rs ih =>
    intro acc srow h hlen
    rcases List.mem_cons.mp h with h | h
    · subst h
      simp only [List.foldl_cons]
      apply loaderFold_sub
      rw [if_pos hlen]
      by_cases h2 : normalize_linkedin_job_url (srow.getD i []) ∈ acc
      · rw [if_pos h2]; exact h2
      · rw [if_neg h2]; exact List.mem_append_right _ (by simp)
    · simp only [List.foldl_cons]
      exact ih _ srow h hlen

/-- The loaded seen-set contains the normalized key of every
sufficiently-long row of the store. -/
theorem loader_covers (header : List Str) (srows : List (List Str)) (i : Nat)
    (hidx : header.findIdx? (fun h => h == linkHeader) = some i)
    (srow : List Str) (hmem : srow ∈ srows) (hlen : i < srow.length) :
    normalize_linkedin_job_url (srow.getD i [])
      ∈ get_existing_job_links (CsvResource.table header srows) := by
  simp only [get_existing_job_links]
  rw [hidx]
  exact loaderFold_mem i srows [] srow hmem hlen

theorem scrape_first_step (pf : ProgressFile) (csvr : CsvResource) (snap : Snapshot)
    (env : Nat → StepEnv) (maxA : Nat) (h : load_progress pf + 1 ≤ maxA) :
    (scrape_linkedin_jobs pf csvr snap env maxA).stepsRun.head?
      = some (load_progress pf + 1) := by
  simp only [scrape_linkedin_jobs]
  by_cases hc : load_progress pf + 1 = 1
  · rw [if_pos hc, hc]
    rw [hc] at h
    exact runFrom_first env maxA _ 1 _ h rfl (by omega)
  · rw [if_neg hc]
    exact runFrom_first env maxA _ _ _ h rfl (by omega)

theorem runFrom_trace_head (env : Nat → StepEnv) (maxA fuel a : Nat) (st : LoopState)
    (e1 e2 : Event) (rest : List Event) (hst : st.trace = e1 :: e2 :: rest) :
    ∃ l, (runFrom env maxA fuel a st).trace = e1 :: e2 :: l := by
  obtain ⟨l, hl⟩ := runFrom_trace_append env maxA fuel a st
  exact ⟨rest ++ l, by rw [hl, hst]; simp⟩

theorem scrape_fresh_trace (pf : ProgressFile) (csvr : CsvResource) (snap : Snapshot)
    (env : Nat → StepEnv) (maxA : Nat) (h0 : load_progress pf = 0) :
    ∃ l, (scrape_linkedin_jobs pf csvr snap env maxA).trace
      = Event.wrote 1 (extract_and_save_jobs snap
          ⟨get_existing_job_links csvr, [], 0⟩).1.rows :: Event.saved 1 :: l := by
  simp only [scrape_linkedin_jobs]
  rw [if_pos (show load_progress pf + 1 = 1 by omega)]
  exact runFrom_trace_head env maxA _ _ _ _ _ [] rfl

/-- C7: (a) a restarted run never appends a record whose normalized key is
in the seen-set loaded from the store; (b) that loaded seen-set contains
the normalized key of every store record with a link column; (c) the first
main-loop step executed is step `k + 1` for checkpoint value `k`; (d) when
`k = 0` the initial extraction runs first and checkpoints cursor 1. -/
theorem c7_resume_correctness (pf : ProgressFile) (csvr : CsvResource)
    (snap : Snapshot) (env : Nat → StepEnv) (maxA : Nat) :
    (∀ r ∈ (scrape_linkedin_jobs pf csvr snap env maxA).ex.rows,
      rowKey r ∉ get_existing_job_links csvr) ∧
    (∀ (header : List Str) (srows : List (List Str)) (i : Nat),
      header.findIdx? (fun h => h == linkHeader) = some i →
      ∀ srow ∈ srows, i < srow.length →
        normalize_linkedin_job_url (srow.getD i [])
          ∈ get_existing_job_links (CsvResource.table header srows)) ∧
    (load_progress pf + 1 ≤ maxA →
      (scrape_linkedin_jobs pf csvr snap env maxA).stepsRun.head?
        = some (load_progress pf + 1)) ∧
    (load_progress pf = 0 →
      ∃ l, (scrape_linkedin_jobs pf csvr snap env maxA).trace
        = Event.wrote 1 (extract_and_save_jobs snap
            ⟨get_existing_job_links csvr, [], 0⟩).1.rows :: Event.saved 1 :: l) :=
  ⟨(exInv_scrape pf csvr snap env maxA).2.2.1,
   fun header srows i hidx srow hmem hlen =>
     loader_covers header srows i hidx srow hmem hlen,
   scrape_first_step pf csvr snap env maxA,
   scrape_fresh_trace pf csvr snap env maxA⟩

/-- Witness for C7: resuming from checkpoint 2, the first loop step is 3. -/
theorem c7_resume_correctness_witness :
    (scrape_linkedin_jobs (ProgressFile.stored 2) CsvResource.absent
        (Snapshot.page []) (fun _ => ⟨false, Snapshot.page []⟩) 10).stepsRun.head?
      = some 3 :=
  (c7_resume_correctness (ProgressFile.stored 2) CsvResource.absent
    (Snapshot.page []) (fun _ => ⟨false, Snapshot.page []⟩) 10).2.2.1 (by decide)

-- ### C8: write-ahead-then-checkpoint ordering

/-- Left-to-right checker for the write-ahead ordering: scanning the event
trace, every `saved n` must be preceded by a `wrote n` event. -/
def savesCoveredFrom (written : List Nat) : List Event → Bool
  | [] => true
  | Event.wrote n _ :: t => savesCoveredFrom (n :: written) t
  | Event.saved n :: t => if n ∈ written then savesCoveredFrom written t else false

def stepsWritten (written : List Nat) (t : List Event) : List Nat :=
  t.foldl (fun w e => match e with
    | Event.wrote n _ => n :: w
    | Event.saved _ => w) written

theorem scf_append : ∀ (t1 t2 : List Event) (w : List Nat),
    savesCoveredFrom w (t1 ++ t2)
      = (savesCoveredFrom w t1 && savesCoveredFrom (stepsWritten w t1) t2) := by
  intro t1
  induction t1 with
  | nil => intro t2 w; simp [savesCoveredFrom, stepsWritten]
  | cons e t1 ih =>
    intro t2 w
    cases e with
    | wrote n rs =>
      simp only [List.cons_append, savesCoveredFrom, stepsWritten, List.foldl_cons]
      exact ih t2 (n :: w)
    | saved n =>
      simp only [List.cons_append, savesCoveredFrom, stepsWritten, List.foldl_cons]
      by_cases h : n ∈ w
      · rw [if_pos h, if_pos h]
        exact ih t2 w
      · rw [if_neg h, if_neg h]
        simp

theorem scf_snoc_wrote (w : List Nat) (t : List Event) (n : Nat)
    (rs : List (List Str)) (h : savesCoveredFrom w t = true) :
    savesCoveredFrom w (t ++ [Event.wrote n rs]) = true := by
  rw [scf_append, h]
  simp [savesCoveredFrom]

theorem scf_snoc_wrote_saved (w : List Nat) (t : List Event) (n : Nat)
    (rs : List (List Str)) (h : savesCoveredFrom w t = true) :
    savesCoveredFrom w ((t ++ [Event.wrote n rs]) ++ [Event.saved n]) = true := by
  rw [List.append_assoc, scf_append, h]
  simp only [Bool.true_and]
  show savesCoveredFrom (stepsWritten w t)
    ([Event.wrote n rs] ++ [Event.saved n]) = true
  simp [savesCoveredFrom]

theorem scf_loopStep (e : StepEnv) (a : Nat) (st : LoopState)
    (h : savesCoveredFrom [] st.trace = true) :
    savesCoveredFrom [] (loopStep e a st).1.trace = true := by
  by_cases hc : stepProgressed e st
  · rw [loopStep_progress_eq e a st hc]
    exact scf_snoc_wrote_saved [] st.trace a _ h
  · by_cases hb : MAX_NO_NEW_JOBS_CONSECUTIVE_SCROLLS ≤ st.stall + 1
    · rw [loopStep_stall_break_eq e a st hc hb]
      exact scf_snoc_wrote [] st.trace a _ h
    · rw [loopStep_stall_cont_eq e a st hc hb]
      exact scf_snoc_wrote_saved [] st.trace a _ h

/-- C8: over the whole run, every step number ever saved to the checkpoint
is preceded in the event trace by that step's batch write to the record
store — the cursor is never saved before the corresponding records are
persisted. -/
theorem c8_write_ahead_checkpoint (pf : ProgressFile) (csvr : CsvResource)
    (snap : Snapshot) (env : Nat → StepEnv) (maxA : Nat) :
    savesCoveredFrom [] (scrape_linkedin_jobs pf csvr snap env maxA).trace = true := by
  simp only [scrape_linkedin_jobs]
  by_cases hc : load_progress pf + 1 = 1
  · rw [if_pos hc]
    exact runFrom_inv (fun s => savesCoveredFrom [] s.trace = true) env maxA 0
      (fun e a st _ _ h => scf_loopStep e a st h)
      _ _ _ (Nat.zero_le _) (by simp [savesCoveredFrom])
  · rw [if_neg hc]
    exact runFrom_inv (fun s => savesCoveredFrom [] s.trace = true) env maxA 0
      (fun e a st _ _ h => scf_loopStep e a st h)
      _ _ _ (Nat.zero_le _) (by simp [savesCoveredFrom])
